import Mathlib

/-!
Verification of the random test-data generator (src/gen.cpp).

The generator's algorithmic core consists of `genArray`, `sample`, `genTree`,
`genConnectedDirectedGraph` and `getLeaves`.  Every function draws randomness
from the process-wide source `rnd` of testlib.h (which is not part of src/);
the spec treats that source as an external capability offering uniform draws,
weighted draws, permutations, integer partitions and sequence shuffles.  We
embed each generator as a pure function over explicit "draw" arguments,
together with contract predicates (`wnextSpec`, `pickSpec`, `permSpec`,
`partitionSpec`, `shufSpec`, `parentSpec`) describing the values those draws
may take; the contracts are modelled from the spec's description of the
Random Source capability.  Machine ints are modelled as ℕ (node ids, counts;
all values arising in valid runs are non-negative and far below 2^31, so no
overflow reduction is needed) and as ℤ where a claim is about possibly
negative data (`getLeaves` endpoints, `genArray` values).  Code that can
abort (assertion failures, fatal precondition violations, out-of-bounds
accesses) is embedded as `Option`, with `none` for the aborting runs.
-/

/-- A directed edge: ordered pair of node identifiers (tail, head).
Mirrors `std::pair<int, int>` in src/gen.cpp. -/
abbrev Edge := ℕ × ℕ

/-- Modelled from the spec: the Weighted Sampler contract.  `rnd.wnext(Min, Max, t)`
(testlib.h, not under src/) "draws a numeric value in [min, max] inclusive"; the
bias `t` shifts the distribution but never the bounds.  `wnextSpec Min Max v`
says the draw `v` is a possible result. -/
def wnextSpec (Min Max v : ℤ) : Prop := Min ≤ v ∧ v ≤ Max

/-- Modelled from the spec: the one-argument weighted draw used for parent
selection.  `rnd.wnext(i, t)` (testlib.h, not under src/) is a weighted draw
over `[0, i)`: per spec §4.4, "choose parent index p[i] = Weighted Sampler draw
over [0, i) with the caller-supplied bias t".  `parentSpec n p` says the table
of draws `p` is possible for all loop indices `1 ≤ i < n`. -/
def parentSpec (n : ℕ) (p : ℕ → ℕ) : Prop := ∀ i, i < n → 1 ≤ i → p i < i

/-- Modelled from the spec: `rnd.perm(n)` (testlib.h, not under src/) returns a
"uniform random permutation of [0, n)"; any rearrangement of `0..n-1` is a
possible value. -/
def permSpec (n : ℕ) (perm : List ℕ) : Prop := List.Perm perm (List.range n)

/-- Modelled from the spec: the uniform-draw capability.  `rnd.next(lo, hi)`
(testlib.h, not under src/) is a "uniform draw in [lo, hi]".  `pick k lo hi`
stands for the k-th such draw of a run. -/
def pickSpec (pick : ℕ → ℕ → ℕ → ℕ) : Prop :=
  ∀ k lo hi, lo ≤ hi → lo ≤ pick k lo hi ∧ pick k lo hi ≤ hi

/-- Modelled from the spec: `rnd.partition(num, len, 1)` (testlib.h, not under
src/) returns "a random composition (partition) of the gap structure": `num`
positive parts summing to `len` (spec §4.3: "a random composition of length
into count positive parts"). -/
def partitionSpec (num len : ℕ) (parts : List ℕ) : Prop :=
  parts.length = num ∧ (∀ q ∈ parts, 1 ≤ q) ∧ parts.sum = len

/-- Modelled from the spec: the "sequence-shuffle operation" of the Random
Source capability; a shuffle returns some permutation of its input. -/
def shufSpec {α : Type} (shuf : List α → List α) : Prop :=
  ∀ l, List.Perm (shuf l) l

/-- Embedding of `genArray` (src/gen.cpp lines 9-37): `arr[i] = rnd.wnext(Min, Max, t)`
for `i = 0..n-1`.  `w i` is the i-th weighted draw; `Min`, `Max` and `t` only
influence the result through the draws, so they appear in the contracts of the
theorems rather than in the function body. -/
def genArray (n : ℕ) (w : ℕ → ℤ) : List ℤ :=
  (List.range n).map w

/-- The indices read by the sampling loop of `sample` (src/gen.cpp lines 67-71):
block `k` of the partition starts at offset `tmp` and has size `q`; the loop
reads `container[rnd.next(tmp, tmp + q - 1)]` and advances `tmp` by `q`. -/
def sampleIdxs (pick : ℕ → ℕ → ℕ → ℕ) : List ℕ → ℕ → ℕ → List ℕ
  | [], _, _ => []
  | q :: qs, k, tmp => pick k tmp (tmp + q - 1) :: sampleIdxs pick qs (k + 1) (tmp + q)

/-- Reading a container at a list of indices, in order; `none` as soon as an
index is out of bounds (an out-of-bounds `operator[]` in the C++ source). -/
def getAll {α : Type} (container : List α) : List ℕ → Option (List α)
  | [] => some []
  | j :: js => (container.get? j).bind fun a => (getAll container js).map fun r => a :: r

/-- Embedding of `sample` (src/gen.cpp lines 39-74).  The call
`rnd.partition(num, len, 1)` comes from testlib.h, which is not under src/;
modelled from the spec (§4.3, §7): it is a fatal precondition violation —
embedded as `none` — exactly "if count exceeds length or is non-positive",
and otherwise yields a composition of `len` into `num` positive parts, passed
here as the draw argument `parts` (constrained by `partitionSpec` in the
theorems).  The loop then reads one representative per block (`sampleIdxs`,
`getAll`) and the result is shuffled. -/
def sample {α : Type} (container : List α) (len num : ℕ) (parts : List ℕ)
    (pick : ℕ → ℕ → ℕ → ℕ) (shuf : List α → List α) : Option (List α) :=
  if num = 0 ∨ len < num then none
  else (getAll container (sampleIdxs pick parts 0 0)).map shuf

/-- The edge list built by `genTree` (src/gen.cpp lines 93-104) before the
final shuffle: for `i = 1..n-1`, the undirected tree edge joins `perm[i]` and
`perm[p[i]]`, directed by the coin flip `rnd.next(2)`. -/
def treeRaw (n : ℕ) (p : ℕ → ℕ) (perm : List ℕ) (coin : ℕ → Bool) : List Edge :=
  (List.range' 1 (n - 1)).map fun i =>
    if coin i then (perm.getD i 0, perm.getD (p i) 0)
    else (perm.getD (p i) 0, perm.getD i 0)

/-- Embedding of `genTree` (src/gen.cpp lines 76-107): parent draws `p`,
permutation `perm`, per-edge direction coins `coin`, final shuffle. -/
def genTree (n : ℕ) (p : ℕ → ℕ) (perm : List ℕ) (coin : ℕ → Bool)
    (shuf : List Edge → List Edge) : List Edge :=
  shuf (treeRaw n p perm coin)

/-- The spanning edges built by `genConnectedDirectedGraph` (src/gen.cpp lines
135-137): every spanning edge is emitted parent→child in the relabeled space,
`(perm[p[i]], perm[i])` for `i = 1..n-1` — no direction coin here. -/
def graphRaw (n : ℕ) (p : ℕ → ℕ) (perm : List ℕ) : List Edge :=
  (List.range' 1 (n - 1)).map fun i => (perm.getD (p i) 0, perm.getD i 0)

/-- The extra-edge loop of `genConnectedDirectedGraph` (src/gen.cpp lines
139-142): for each of `cnt` iterations (loop variable `k`, starting at `n`),
draw `node = sample(perm, n, 2)` and push the directed edge
`(node[0], node[1])`; reading `node[0]`/`node[1]` from a result with fewer
than two entries would be out of bounds, hence `none` in that case. -/
def genExtras (perm : List ℕ) (n : ℕ) (parts : ℕ → List ℕ)
    (pick : ℕ → ℕ → ℕ → ℕ → ℕ) (sshuf : ℕ → List ℕ → List ℕ) :
    ℕ → ℕ → Option (List Edge)
  | _, 0 => some []
  | k, cnt + 1 =>
    (sample perm n 2 (parts k) (pick k) (sshuf k)).bind fun node =>
      match node with
      | a :: b :: _ => (genExtras perm n parts pick sshuf (k + 1) cnt).map
          fun r => (a, b) :: r
      | _ => none

/-- Embedding of `genConnectedDirectedGraph` (src/gen.cpp lines 109-145).
`assert(m >= n - 1)` (line 129) aborts — embedded as `none` — unless
`m ≥ n - 1`, i.e. `n ≤ m + 1` over the machine integers; the extra-edge loop
`for (i = n; i <= m; ++i)` runs `m + 1 - n` times.  On success the result is
the shuffled edge list together with the start node `s = perm[0]`. -/
def genConnectedDirectedGraph (n m : ℕ) (p : ℕ → ℕ) (perm : List ℕ)
    (parts : ℕ → List ℕ) (pick : ℕ → ℕ → ℕ → ℕ → ℕ) (sshuf : ℕ → List ℕ → List ℕ)
    (shuf : List Edge → List Edge) : Option (List Edge × ℕ) :=
  if n ≤ m + 1 then
    (genExtras perm n parts pick sshuf n (m + 1 - n)).map fun extras =>
      (shuf (graphRaw n p perm ++ extras), perm.getD 0 0)
  else none

/-- One `deg[u]++` of `getLeaves` (src/gen.cpp lines 161-162): indexing the
degree array at a C++ `int` endpoint `u`, in bounds only for `0 ≤ u < deg.size()`. -/
def bumpDeg (deg : List ℕ) (u : ℤ) : Option (List ℕ) :=
  if 0 ≤ u ∧ u.toNat < deg.length then
    some (deg.set u.toNat (deg.getD u.toNat 0 + 1))
  else none

/-- The degree-counting loop of `getLeaves` (src/gen.cpp lines 160-163):
`deg[edges[i].first]++; deg[edges[i].second]++` for every edge, in order. -/
def degLoop : List ℕ → List (ℤ × ℤ) → Option (List ℕ)
  | deg, [] => some deg
  | deg, e :: es =>
    (bumpDeg deg e.1).bind fun d1 => (bumpDeg d1 e.2).bind fun d2 => degLoop d2 es

/-- Embedding of `getLeaves` (src/gen.cpp lines 147-170): with
`n = edges.size() + 1`, count endpoint incidences into `deg`, then collect the
ids `0..n-1` of degree exactly 1 in ascending order.  The second component of
the result is the diagnostic count written to `std::cerr` (line 168). -/
def getLeaves (edges : List (ℤ × ℤ)) : Option (List ℕ × ℕ) :=
  (degLoop (List.replicate (edges.length + 1) 0) edges).map fun deg =>
    let leaf := (List.range (edges.length + 1)).filter fun i => deg.getD i 0 = 1
    (leaf, leaf.length)

/-- Reference degree count: the number of endpoint occurrences of node `v`
across all edges (each edge contributes its two endpoints). -/
def degCount (edges : List (ℤ × ℤ)) (v : ℤ) : ℕ :=
  edges.countP (fun e => e.1 == v) + edges.countP (fun e => e.2 == v)

/-- The leaves as the claim describes them: the node ids `0..edges.size()`
whose degree is exactly 1, in ascending order. -/
def leafSpec (edges : List (ℤ × ℤ)) : List ℕ :=
  (List.range (edges.length + 1)).filter fun i : ℕ => degCount edges (i : ℤ) = 1

/-- Directed reachability in an edge list: the reflexive-transitive closure of
"there is a directed edge from a to b". -/
def dReach (E : List Edge) : ℕ → ℕ → Prop :=
  Relation.ReflTransGen fun a b => (a, b) ∈ E

/-- The undirected graph of an edge list (edge direction ignored), on node ids ℕ. -/
def udGraph (E : List Edge) : SimpleGraph ℕ where
  Adj a b := a ≠ b ∧ ((a, b) ∈ E ∨ (b, a) ∈ E)
  symm := by
    intro a b h
    exact ⟨fun hba => h.1 hba.symm, h.2.symm⟩
  loopless := fun a h => h.1 rfl

/-! ## Basic facts -/

theorem treeRaw_nil (n : ℕ) (p : ℕ → ℕ) (perm : List ℕ) (coin : ℕ → Bool)
    (hn : n ≤ 1) : treeRaw n p perm coin = [] := by
  have : n - 1 = 0 := by omega
  simp [treeRaw, this]

theorem shuf_nil {α : Type} (shuf : List α → List α) (hshuf : shufSpec shuf) :
    shuf [] = [] :=
  List.Perm.eq_nil (hshuf [])

/-! ## Claim C4: genArray -/

/-- C4: for every n ≥ 0 and every Min ≤ Max, `genArray(n, Min, Max, t)` returns a
sequence of exactly n values, each lying in [Min, Max]; n = 0 yields the empty
sequence.  The elements are the weighted draws `w i`, each constrained to
[Min, Max] by the Weighted Sampler contract. -/
theorem genArray_spec (n : ℕ) (Min Max : ℤ) (w : ℕ → ℤ)
    (hr : Min ≤ Max) (hw : ∀ i, i < n → wnextSpec Min Max (w i)) :
    (genArray n w).length = n ∧ (∀ v ∈ genArray n w, Min ≤ v ∧ v ≤ Max) ∧
      genArray 0 w = [] := by
  clear hr
  refine ⟨by simp [genArray], ?_, by simp [genArray]⟩
  intro v hv
  obtain ⟨i, hi, rfl⟩ := List.mem_map.mp hv
  exact hw i (List.mem_range.mp hi)

/-- Witness for C4 at n = 3, Min = 0, Max = 5, all draws equal to 2. -/
theorem genArray_spec_witness :
    (genArray 3 fun _ => 2).length = 3 ∧
      (∀ v ∈ genArray 3 fun _ => 2, (0:ℤ) ≤ v ∧ v ≤ 5) ∧
      genArray 0 (fun _ => (2:ℤ)) = [] :=
  genArray_spec 3 0 5 (fun _ => 2) (by decide)
    (by intro i hi; exact ⟨by norm_num, by norm_num⟩)

/-! ## Claim C5: genTree on n ≤ 1 -/

/-- C5: for every n ≤ 1 (so both n = 0 and n = 1) and every bias, `genTree`
returns the empty edge sequence by an ordinary return: the edge loop
`for (i = 1; i < n; i++)` runs zero times and shuffling the empty vector
leaves it empty. -/
theorem genTree_small (n : ℕ) (p : ℕ → ℕ) (perm : List ℕ) (coin : ℕ → Bool)
    (shuf : List Edge → List Edge) (hshuf : shufSpec shuf) (hn : n ≤ 1) :
    genTree n p perm coin shuf = [] := by
  rw [genTree, treeRaw_nil n p perm coin hn, shuf_nil shuf hshuf]

/-- Witness for C5 at n = 1 and at n = 0 (identity shuffle, arbitrary draws). -/
theorem genTree_small_witness :
    genTree 1 (fun _ => 0) [0] (fun _ => true) id = [] ∧
      genTree 0 (fun _ => 0) [] (fun _ => true) id = [] :=
  ⟨genTree_small 1 (fun _ => 0) [0] (fun _ => true) id
      (fun l => List.Perm.refl l) (by decide),
    genTree_small 0 (fun _ => 0) [] (fun _ => true) id
      (fun l => List.Perm.refl l) (by decide)⟩

/-! ## Claim C6: genConnectedDirectedGraph assertion -/

/-- C6: for every n and m with m < n − 1 (over the machine integers; with the
non-negative counts modelled as ℕ this reads m + 1 < n), the generation fails
fatally at `assert(m >= n - 1)` (src/gen.cpp line 129): no edges are produced
and the start out-parameter is never assigned — the run yields `none`. -/
theorem genConnectedDirectedGraph_assert (n m : ℕ) (p : ℕ → ℕ) (perm : List ℕ)
    (parts : ℕ → List ℕ) (pick : ℕ → ℕ → ℕ → ℕ → ℕ) (sshuf : ℕ → List ℕ → List ℕ)
    (shuf : List Edge → List Edge) (h : m + 1 < n) :
    genConnectedDirectedGraph n m p perm parts pick sshuf shuf = none := by
  rw [genConnectedDirectedGraph, if_neg (by omega)]

/-- Witness for C6 at n = 3, m = 1 (1 < 3 − 1). -/
theorem genConnectedDirectedGraph_assert_witness :
    genConnectedDirectedGraph 3 1 (fun _ => 0) [0, 1, 2] (fun _ => [])
      (fun _ _ _ _ => 0) (fun _ l => l) id = none :=
  genConnectedDirectedGraph_assert 3 1 (fun _ => 0) [0, 1, 2] (fun _ => [])
    (fun _ _ _ _ => 0) (fun _ l => l) id (by decide)

/-! ## The subset sampler: claims C3, C7, C10 -/

theorem sampleIdxs_length (pick : ℕ → ℕ → ℕ → ℕ) (parts : List ℕ) :
    ∀ k tmp, (sampleIdxs pick parts k tmp).length = parts.length := by
  induction parts with
  | nil => intro k tmp; rfl
  | cons q qs ih => intro k tmp; rw [sampleIdxs]; simp [ih]

theorem sampleIdxs_bounds (pick : ℕ → ℕ → ℕ → ℕ) (hpick : pickSpec pick)
    (parts : List ℕ) : ∀ k tmp, (∀ q ∈ parts, 1 ≤ q) →
      ∀ j ∈ sampleIdxs pick parts k tmp, tmp ≤ j ∧ j < tmp + parts.sum := by
  induction parts with
  | nil => intro k tmp _ j hj; simp [sampleIdxs] at hj
  | cons q qs ih =>
    intro k tmp hq j hj
    have hq1 : 1 ≤ q := hq q (List.mem_cons_self q qs)
    have hpk := hpick k tmp (tmp + q - 1) (by omega)
    rw [sampleIdxs] at hj
    rcases List.mem_cons.mp hj with rfl | hj
    · exact ⟨hpk.1, by have := hpk.2; simp only [List.sum_cons]; omega⟩
    · have := ih (k + 1) (tmp + q) (fun x hx => hq x (List.mem_cons_of_mem q hx)) j hj
      simp only [List.sum_cons]
      omega

theorem sampleIdxs_sorted (pick : ℕ → ℕ → ℕ → ℕ) (hpick : pickSpec pick)
    (parts : List ℕ) : ∀ k tmp, (∀ q ∈ parts, 1 ≤ q) →
      List.Sorted (· < ·) (sampleIdxs pick parts k tmp) := by
  induction parts with
  | nil => intro k tmp _; simp [sampleIdxs]
  | cons q qs ih =>
    intro k tmp hq
    have hq1 : 1 ≤ q := hq q (List.mem_cons_self q qs)
    have hqs : ∀ x ∈ qs, 1 ≤ x := fun x hx => hq x (List.mem_cons_of_mem q hx)
    rw [sampleIdxs]
    refine List.sorted_cons.mpr ⟨?_, ih (k + 1) (tmp + q) hqs⟩
    intro b hb
    have hb1 := (sampleIdxs_bounds pick hpick qs (k + 1) (tmp + q) hqs b hb).1
    have hpk := (hpick k tmp (tmp + q - 1) (by omega)).2
    omega

theorem getAll_some {α : Type} (container : List α) (idxs : List ℕ)
    (h : ∀ j ∈ idxs, j < container.length) :
    ∃ l, getAll container idxs = some l ∧ l.length = idxs.length := by
  induction idxs with
  | nil => exact ⟨[], rfl, rfl⟩
  | cons j js ih =>
    obtain ⟨l, hl, hlen⟩ := ih fun x hx => h x (List.mem_cons_of_mem j hx)
    have hj := h j (List.mem_cons_self j js)
    refine ⟨container.get ⟨j, hj⟩ :: l, ?_, by simp [hlen]⟩
    rw [getAll, List.get?_eq_get hj, hl]
    rfl

theorem getAll_none {α : Type} (container : List α) (idxs : List ℕ) (j : ℕ)
    (hj : j ∈ idxs) (hge : container.length ≤ j) :
    getAll container idxs = none := by
  induction idxs with
  | nil => cases hj
  | cons i is ih =>
    rw [getAll]
    rcases List.mem_cons.mp hj with rfl | hj
    · rw [List.get?_eq_none.mpr hge]
      rfl
    · rw [ih hj]
      cases container.get? i <;> rfl

theorem sampleIdxs_top_mem (parts : List ℕ) : ∀ k tmp, parts ≠ [] →
    (∀ q ∈ parts, 1 ≤ q) →
    (tmp + parts.sum - 1) ∈ sampleIdxs (fun _ lo hi => max lo hi) parts k tmp := by
  induction parts with
  | nil => intro k tmp h; cases h rfl
  | cons q qs ih =>
    intro k tmp _ hq
    have hq1 : 1 ≤ q := hq q (List.mem_cons_self q qs)
    rw [sampleIdxs]
    rcases eq_or_ne qs [] with rfl | hqs
    · simp only [sampleIdxs, List.sum_cons, List.sum_nil]
      have h2 : tmp + (q + 0) - 1 = max tmp (tmp + q - 1) := by omega
      rw [h2]
      exact List.mem_cons_self _ _
    · have := ih (k + 1) (tmp + q) hqs fun x hx => hq x (List.mem_cons_of_mem q hx)
      have heq : tmp + q + qs.sum - 1 = tmp + (q :: qs).sum - 1 := by
        simp only [List.sum_cons]; omega
      rw [heq] at this
      exact List.mem_cons_of_mem _ this

/-- C3: for every container of size `len` and every count with 1 ≤ num ≤ len,
`sample` returns a container of the same (element) type holding exactly `num`
elements, taken from `num` distinct in-range indices of the original container
(selection without replacement): the partition blocks are disjoint, so the
chosen indices are strictly increasing, and the result is a shuffle of the
elements read at those indices. -/
theorem sample_spec {α : Type} (container : List α) (len num : ℕ) (parts : List ℕ)
    (pick : ℕ → ℕ → ℕ → ℕ) (shuf : List α → List α)
    (hc : container.length = len) (h1 : 1 ≤ num) (h2 : num ≤ len)
    (hparts : partitionSpec num len parts) (hpick : pickSpec pick)
    (hshuf : shufSpec shuf) :
    ∃ res, sample container len num parts pick shuf = some res ∧
      res.length = num ∧
      ∃ idxs, idxs.Nodup ∧ idxs.length = num ∧ (∀ j ∈ idxs, j < len) ∧
        ∃ picked, getAll container idxs = some picked ∧ List.Perm res picked := by
  obtain ⟨hplen, hpos, hsum⟩ := hparts
  have hbounds : ∀ j ∈ sampleIdxs pick parts 0 0, j < len := by
    intro j hj
    have := (sampleIdxs_bounds pick hpick parts 0 0 hpos j hj).2
    omega
  have hlen : (sampleIdxs pick parts 0 0).length = num := by
    rw [sampleIdxs_length]; exact hplen
  obtain ⟨picked, hpicked, hpl⟩ := getAll_some container (sampleIdxs pick parts 0 0)
    (by intro j hj; rw [hc]; exact hbounds j hj)
  refine ⟨shuf picked, ?_, ?_, sampleIdxs pick parts 0 0, ?_, hlen, hbounds,
    picked, hpicked, hshuf picked⟩
  · rw [sample, if_neg (by omega), hpicked]
    rfl
  · rw [(hshuf picked).length_eq, hpl, hlen]
  · exact (sampleIdxs_sorted pick hpick parts 0 0 hpos).nodup

/-- Witness for C3: sampling 2 of 2 elements with the trivial partition. -/
theorem sample_spec_witness :
    ∃ res, sample [10, 20] 2 2 [1, 1] (fun _ lo _ => lo) id = some res ∧
      res.length = 2 ∧
      ∃ idxs, idxs.Nodup ∧ idxs.length = 2 ∧ (∀ j ∈ idxs, j < 2) ∧
        ∃ picked, getAll [10, 20] idxs = some picked ∧ List.Perm res picked :=
  sample_spec [10, 20] 2 2 [1, 1] (fun _ lo _ => lo) id rfl (by decide) (by decide)
    ⟨rfl, by decide, rfl⟩ (fun k lo hi h => ⟨le_rfl, h⟩) (fun l => List.Perm.refl l)

/-- C7: `sample(container, len, num)` fails fatally exactly when the
precondition 1 ≤ num ≤ len is violated (with counts modelled as ℕ, `num ≤ 0`
reads `num = 0`, which covers the case num = 0 with len = 0): the partition
call aborts on a violated precondition, and for every 1 ≤ num ≤ len the
sampling loop completes and returns normally. -/
theorem sample_fail_iff {α : Type} (container : List α) (len num : ℕ)
    (parts : List ℕ) (pick : ℕ → ℕ → ℕ → ℕ) (shuf : List α → List α)
    (hc : container.length = len) (hpick : pickSpec pick)
    (hparts : 1 ≤ num → num ≤ len → partitionSpec num len parts) :
    (sample container len num parts pick shuf = none ↔ num = 0 ∨ len < num) := by
  constructor
  · intro h
    by_contra hcon
    push_neg at hcon
    obtain ⟨hplen, hpos, hsum⟩ := hparts (by omega) (by omega)
    obtain ⟨picked, hpicked, -⟩ := getAll_some container (sampleIdxs pick parts 0 0)
      (by
        intro j hj
        have := (sampleIdxs_bounds pick hpick parts 0 0 hpos j hj).2
        omega)
    rw [sample, if_neg (by omega), hpicked] at h
    cases h
  · intro h
    rw [sample, if_pos h]

/-- Witness for C7 at num = 3 > len = 2 (a violated precondition: `none`). -/
theorem sample_fail_iff_witness :
    (sample [10, 20] 2 3 [] (fun _ lo _ => lo) (id : List ℕ → List ℕ) = none ↔
      3 = 0 ∨ 2 < 3) :=
  sample_fail_iff [10, 20] 2 3 [] (fun _ lo _ => lo) id rfl
    (fun k lo hi h => ⟨le_rfl, h⟩) (by omega)

/-- C10: under a valid partition, every index read by `sample` lies below
`len` — each block `tmp..tmp+q-1` stays below `len` because the parts are
positive and sum to `len` — so all container accesses are guaranteed in
bounds, over all possible uniform draws, if and only if the unstated
precondition `len ≤ container.size()` holds. -/
theorem sample_bounds_iff {α : Type} (container : List α) (len num : ℕ)
    (parts : List ℕ) (shuf : List α → List α)
    (h1 : 1 ≤ num) (h2 : num ≤ len) (hparts : partitionSpec num len parts) :
    (∀ pick, pickSpec pick → ∀ j ∈ sampleIdxs pick parts 0 0, j < len) ∧
      ((∀ pick, pickSpec pick →
          (sample container len num parts pick shuf).isSome = true) ↔
        len ≤ container.length) := by
  obtain ⟨hplen, hpos, hsum⟩ := hparts
  have hbounds : ∀ pick, pickSpec pick → ∀ j ∈ sampleIdxs pick parts 0 0, j < len := by
    intro pick hpick j hj
    have := (sampleIdxs_bounds pick hpick parts 0 0 hpos j hj).2
    omega
  refine ⟨hbounds, ?_, ?_⟩
  · intro hall
    by_contra hlt
    push_neg at hlt
    have hmax : pickSpec fun _ lo hi => max lo hi :=
      fun k lo hi h => ⟨le_max_left lo hi, max_le h le_rfl⟩
    have htop := sampleIdxs_top_mem parts 0 0
      (by intro hnil; rw [hnil] at hplen; simp at hplen; omega) hpos
    rw [hsum] at htop
    have hnone : getAll container (sampleIdxs (fun _ lo hi => max lo hi) parts 0 0) = none :=
      getAll_none container _ (0 + len - 1) htop (by omega)
    have := hall (fun _ lo hi => max lo hi) hmax
    rw [sample, if_neg (by omega), hnone] at this
    cases this
  · intro hle pick hpick
    obtain ⟨picked, hpicked, -⟩ := getAll_some container (sampleIdxs pick parts 0 0)
      (by intro j hj; have := hbounds pick hpick j hj; omega)
    rw [sample, if_neg (by omega), hpicked]
    rfl

/-- Witness for C10 with a container of exactly the announced length. -/
theorem sample_bounds_iff_witness :
    (∀ pick, pickSpec pick → ∀ j ∈ sampleIdxs pick [1, 1] 0 0, j < 2) ∧
      ((∀ pick, pickSpec pick →
          (sample [10, 20] 2 2 [1, 1] pick (id : List ℕ → List ℕ)).isSome = true) ↔
        2 ≤ ([10, 20] : List ℕ).length) :=
  sample_bounds_iff [10, 20] 2 2 [1, 1] id (by decide) (by decide) ⟨rfl, by decide, rfl⟩

/-! ## The leaf extractor: claims C8, C9 -/

theorem getD_set_lt (l : List ℕ) (i j : ℕ) (a : ℕ) (hj : j < l.length) :
    (l.set i a).getD j 0 = if i = j then a else l.getD j 0 := by
  rcases eq_or_ne i j with rfl | hne
  · rw [if_pos rfl, List.getD_eq_get?, List.get?_set_eq_of_lt a hj, Option.getD_some]
  · rw [if_neg hne, List.getD_eq_get?, List.get?_set_ne a l hne, List.getD_eq_get?]

theorem bumpDeg_some (deg d : List ℕ) (u : ℤ) (h : bumpDeg deg u = some d) :
    (0 ≤ u ∧ u.toNat < deg.length) ∧ d.length = deg.length ∧
      ∀ j, j < deg.length →
        d.getD j 0 = deg.getD j 0 + (if u = (j : ℤ) then 1 else 0) := by
  rw [bumpDeg] at h
  split_ifs at h with hc
  · obtain ⟨h0, hlt⟩ := hc
    cases h
    refine ⟨⟨h0, hlt⟩, List.length_set _ _ _, ?_⟩
    intro j hj
    rw [getD_set_lt _ _ _ _ hj]
    by_cases heq : u.toNat = j
    · subst heq
      rw [if_pos rfl, if_pos (by omega)]
    · rw [if_neg heq, if_neg (by omega)]
      exact (Nat.add_zero _).symm

theorem bumpDeg_none (deg : List ℕ) (u : ℤ) (h : ¬(0 ≤ u ∧ u.toNat < deg.length)) :
    bumpDeg deg u = none := by
  rw [bumpDeg, if_neg h]

theorem degCount_cons (e : ℤ × ℤ) (es : List (ℤ × ℤ)) (v : ℤ) :
    degCount (e :: es) v =
      degCount es v + ((if e.1 = v then 1 else 0) + (if e.2 = v then 1 else 0)) := by
  rw [degCount, degCount, List.countP_cons, List.countP_cons]
  simp only [beq_iff_eq]
  omega

theorem degLoop_spec (n : ℕ) (es : List (ℤ × ℤ)) :
    ∀ deg : List ℕ, deg.length = n →
      (∀ e ∈ es, (0 ≤ e.1 ∧ e.1 < (n : ℤ)) ∧ (0 ≤ e.2 ∧ e.2 < (n : ℤ))) →
      ∃ d, degLoop deg es = some d ∧ d.length = n ∧
        ∀ j, j < n → d.getD j 0 = deg.getD j 0 + degCount es (j : ℤ) := by
  induction es with
  | nil =>
    intro deg hlen _
    exact ⟨deg, rfl, hlen, fun j _ => by simp [degCount]⟩
  | cons e es ih =>
    intro deg hlen hb
    obtain ⟨⟨h10, h1n⟩, h20, h2n⟩ := hb e (List.mem_cons_self e es)
    have hb1 : bumpDeg deg e.1 =
        some (deg.set e.1.toNat (deg.getD e.1.toNat 0 + 1)) := by
      rw [bumpDeg, if_pos ⟨h10, by omega⟩]
    set d1 := deg.set e.1.toNat (deg.getD e.1.toNat 0 + 1) with hd1
    have hd1len : d1.length = n := by rw [hd1, List.length_set, hlen]
    have hb2 : bumpDeg d1 e.2 =
        some (d1.set e.2.toNat (d1.getD e.2.toNat 0 + 1)) := by
      rw [bumpDeg, if_pos ⟨h20, by omega⟩]
    set d2 := d1.set e.2.toNat (d1.getD e.2.toNat 0 + 1) with hd2
    have hd2len : d2.length = n := by rw [hd2, List.length_set, hd1len]
    obtain ⟨d, hd, hdlen, hdval⟩ := ih d2 hd2len
      (fun x hx => hb x (List.mem_cons_of_mem e hx))
    refine ⟨d, ?_, hdlen, ?_⟩
    · rw [degLoop, hb1, Option.some_bind, hb2, Option.some_bind]
      exact hd
    · intro j hj
      have hv1 : d1.getD j 0 = deg.getD j 0 + (if e.1 = (j : ℤ) then 1 else 0) := by
        obtain ⟨-, -, hval⟩ := bumpDeg_some deg d1 e.1 hb1
        exact hval j (by omega)
      have hv2 : d2.getD j 0 = d1.getD j 0 + (if e.2 = (j : ℤ) then 1 else 0) := by
        obtain ⟨-, -, hval⟩ := bumpDeg_some d1 d2 e.2 hb2
        exact hval j (by omega)
      rw [hdval j hj, hv2, hv1, degCount_cons]
      omega

theorem degLoop_length (es : List (ℤ × ℤ)) :
    ∀ deg d : List ℕ, degLoop deg es = some d → d.length = deg.length := by
  induction es with
  | nil => intro deg d h; cases h; rfl
  | cons e es ih =>
    intro deg d h
    rw [degLoop] at h
    cases hb1 : bumpDeg deg e.1 with
    | none => rw [hb1] at h; cases h
    | some d1 =>
      rw [hb1, Option.some_bind] at h
      cases hb2 : bumpDeg d1 e.2 with
      | none => rw [hb2] at h; cases h
      | some d2 =>
        rw [hb2, Option.some_bind] at h
        have h1 := (bumpDeg_some deg d1 e.1 hb1).2.1
        have h2 := (bumpDeg_some d1 d2 e.2 hb2).2.1
        rw [ih d2 d h, h2, h1]

theorem degLoop_some_iff (n : ℕ) (es : List (ℤ × ℤ)) :
    ∀ deg : List ℕ, deg.length = n →
      ((degLoop deg es).isSome = true ↔
        ∀ e ∈ es, (0 ≤ e.1 ∧ e.1 < (n : ℤ)) ∧ (0 ≤ e.2 ∧ e.2 < (n : ℤ))) := by
  induction es with
  | nil => intro deg _; simp [degLoop]
  | cons e es ih =>
    intro deg hlen
    by_cases h1 : 0 ≤ e.1 ∧ e.1.toNat < deg.length
    · have hb1 : bumpDeg deg e.1 =
          some (deg.set e.1.toNat (deg.getD e.1.toNat 0 + 1)) := by
        rw [bumpDeg, if_pos h1]
      set d1 := deg.set e.1.toNat (deg.getD e.1.toNat 0 + 1) with hd1
      have hd1len : d1.length = n := by rw [hd1, List.length_set, hlen]
      by_cases h2 : 0 ≤ e.2 ∧ e.2.toNat < d1.length
      · have hb2 : bumpDeg d1 e.2 =
            some (d1.set e.2.toNat (d1.getD e.2.toNat 0 + 1)) := by
          rw [bumpDeg, if_pos h2]
        set d2 := d1.set e.2.toNat (d1.getD e.2.toNat 0 + 1) with hd2
        have hd2len : d2.length = n := by rw [hd2, List.length_set, hd1len]
        rw [degLoop, hb1, Option.some_bind, hb2, Option.some_bind, ih d2 hd2len]
        constructor
        · intro hall x hx
          rcases List.mem_cons.mp hx with rfl | hx
          · constructor
            · constructor
              · exact h1.1
              · have := h1.2; omega
            · constructor
              · exact h2.1
              · have := h2.2; omega
          · exact hall x hx
        · intro hall x hx
          exact hall x (List.mem_cons_of_mem e hx)
      · rw [degLoop, hb1, Option.some_bind, bumpDeg_none d1 e.2 h2]
        simp only [Option.none_bind, Option.isSome_none, Bool.false_eq_true, false_iff]
        intro hall
        have := (hall e (List.mem_cons_self e es)).2
        rw [hd1len] at h2
        omega
    · rw [degLoop, bumpDeg_none deg e.1 h1]
      simp only [Option.none_bind, Option.isSome_none, Bool.false_eq_true, false_iff]
      intro hall
      have := (hall e (List.mem_cons_self e es)).1
      rw [hlen] at h1
      omega

/-- C9: `getLeaves` indexes its degree array at every edge endpoint with no
bounds check, so every access of the counting loop is in bounds — the run
returns a value rather than aborting — if and only if every endpoint of every
edge lies in [0, edges.size()]; moreover on success the degree array keeps
length edges.size() + 1, so the final scan over ids 0..edges.size() is in
bounds as well. -/
theorem getLeaves_bounds_iff (edges : List (ℤ × ℤ)) :
    ((getLeaves edges).isSome = true ↔
      ∀ e ∈ edges, (0 ≤ e.1 ∧ e.1 ≤ (edges.length : ℤ)) ∧
        (0 ≤ e.2 ∧ e.2 ≤ (edges.length : ℤ))) ∧
    ∀ d, degLoop (List.replicate (edges.length + 1) 0) edges = some d →
      d.length = edges.length + 1 := by
  constructor
  · rw [getLeaves, Option.isSome_map']
    rw [degLoop_some_iff (edges.length + 1) edges _ (List.length_replicate _ _)]
    constructor
    · intro h e he
      have := h e he
      omega
    · intro h e he
      have := h e he
      omega
  · intro d hd
    rw [degLoop_length edges _ d hd, List.length_replicate]

/-- C8: for every edge list over node ids 0..edges.size() (all endpoints in
bounds), `getLeaves` returns exactly the node ids whose degree — the number of
incident endpoints counted across all edges, with n = edges.size() + 1 nodes —
is exactly 1, in ascending id order, and emits that count of such nodes to the
error stream (the second component of the embedded result). -/
theorem getLeaves_spec (edges : List (ℤ × ℤ))
    (hb : ∀ e ∈ edges, (0 ≤ e.1 ∧ e.1 ≤ (edges.length : ℤ)) ∧
      (0 ≤ e.2 ∧ e.2 ≤ (edges.length : ℤ))) :
    getLeaves edges = some (leafSpec edges, (leafSpec edges).length) ∧
      List.Sorted (· < ·) (leafSpec edges) := by
  obtain ⟨d, hd, hdlen, hdval⟩ := degLoop_spec (edges.length + 1) edges
    (List.replicate (edges.length + 1) 0) (List.length_replicate _ _)
    (fun e he => by have := hb e he; omega)
  have hfilter : ((List.range (edges.length + 1)).filter fun i => d.getD i 0 = 1) =
      leafSpec edges := by
    apply List.filter_congr
    intro i hi
    have hlt := List.mem_range.mp hi
    have hv := hdval i hlt
    simp only [List.getD_eq_getElem?_getD, List.getElem?_getD_replicate_default_eq] at hv
    simp only [List.getD_eq_getElem?_getD, hv, Nat.zero_add]
  refine ⟨?_, ?_⟩
  · simp only [getLeaves, hd, Option.map_some']
    rw [hfilter]
  · exact (List.pairwise_lt_range _).sublist (List.filter_sublist _)

/-- Witness for C8 on the path 0 − 1 − 2 (leaves 0 and 2). -/
theorem getLeaves_spec_witness :
    getLeaves [(0, 1), (1, 2)] =
        some (leafSpec [(0, 1), (1, 2)], (leafSpec [(0, 1), (1, 2)]).length) ∧
      List.Sorted (· < ·) (leafSpec [(0, 1), (1, 2)]) :=
  getLeaves_spec [(0, 1), (1, 2)] (by decide)

/-! ## The random tree builder: claim C2 -/

theorem permSpec_length {n : ℕ} {perm : List ℕ} (h : permSpec n perm) :
    perm.length = n := by
  rw [h.length_eq, List.length_range]

theorem permSpec_nodup {n : ℕ} {perm : List ℕ} (h : permSpec n perm) :
    perm.Nodup :=
  h.nodup_iff.mpr (List.nodup_range n)

theorem permSpec_getD_lt {n : ℕ} {perm : List ℕ} (h : permSpec n perm)
    {i : ℕ} (hi : i < n) : perm.getD i 0 < n := by
  have hlen : i < perm.length := by rw [permSpec_length h]; exact hi
  rw [List.getD_eq_getElem perm 0 hlen]
  exact List.mem_range.mp (h.mem_iff.mp (perm.getElem_mem hlen))

theorem permSpec_getD_inj {n : ℕ} {perm : List ℕ} (h : permSpec n perm)
    {i j : ℕ} (hi : i < n) (hj : j < n) (heq : perm.getD i 0 = perm.getD j 0) :
    i = j := by
  have hli : i < perm.length := by rw [permSpec_length h]; exact hi
  have hlj : j < perm.length := by rw [permSpec_length h]; exact hj
  rw [List.getD_eq_getElem perm 0 hli, List.getD_eq_getElem perm 0 hlj] at heq
  exact (List.Nodup.getElem_inj_iff (permSpec_nodup h)).mp heq

theorem permSpec_surj {n : ℕ} {perm : List ℕ} (h : permSpec n perm)
    {v : ℕ} (hv : v < n) : ∃ i, i < n ∧ perm.getD i 0 = v := by
  have hm : v ∈ perm := h.mem_iff.mpr (List.mem_range.mpr hv)
  obtain ⟨i, hi, hget⟩ := List.mem_iff_getElem.mp hm
  refine ⟨i, ?_, ?_⟩
  · rw [← permSpec_length h]; exact hi
  · rw [List.getD_eq_getElem perm 0 hi]; exact hget

theorem permSpec_indexOf_getD {n : ℕ} {perm : List ℕ} (h : permSpec n perm)
    {i : ℕ} (hi : i < n) : perm.indexOf (perm.getD i 0) = i := by
  have hlen : i < perm.length := by rw [permSpec_length h]; exact hi
  rw [List.getD_eq_getElem perm 0 hlen]
  exact List.indexOf_getElem (permSpec_nodup h) i hlen

theorem udGraph_adj {E : List Edge} {a b : ℕ} :
    (udGraph E).Adj a b ↔ a ≠ b ∧ ((a, b) ∈ E ∨ (b, a) ∈ E) := Iff.rfl

theorem udGraph_congr {E F : List Edge} (h : ∀ e : Edge, e ∈ E ↔ e ∈ F) :
    udGraph E = udGraph F := by
  apply SimpleGraph.ext
  funext a b
  simp only [udGraph, h]

theorem treeRaw_mem_iff {n : ℕ} {p : ℕ → ℕ} {perm : List ℕ} {coin : ℕ → Bool}
    {e : Edge} :
    e ∈ treeRaw n p perm coin ↔ ∃ i, 1 ≤ i ∧ i < n ∧
      e = (if coin i then (perm.getD i 0, perm.getD (p i) 0)
        else (perm.getD (p i) 0, perm.getD i 0)) := by
  rw [treeRaw, List.mem_map]
  constructor
  · rintro ⟨i, hi, rfl⟩
    have := List.mem_range'_1.mp hi
    exact ⟨i, this.1, by omega, rfl⟩
  · rintro ⟨i, h1, hn, rfl⟩
    exact ⟨i, List.mem_range'_1.mpr ⟨h1, by omega⟩, rfl⟩

theorem treeRaw_adj {n : ℕ} {p : ℕ → ℕ} {perm : List ℕ} {coin : ℕ → Bool}
    {a b : ℕ} (h : (udGraph (treeRaw n p perm coin)).Adj a b) :
    ∃ i, 1 ≤ i ∧ i < n ∧
      ((a = perm.getD i 0 ∧ b = perm.getD (p i) 0) ∨
        (a = perm.getD (p i) 0 ∧ b = perm.getD i 0)) := by
  rcases h.2 with hm | hm <;> rw [treeRaw_mem_iff] at hm <;>
    obtain ⟨i, h1, hn, he⟩ := hm
  · refine ⟨i, h1, hn, ?_⟩
    by_cases hc : coin i
    · rw [if_pos hc] at he
      exact Or.inl ⟨congrArg Prod.fst he, congrArg Prod.snd he⟩
    · rw [if_neg hc] at he
      exact Or.inr ⟨congrArg Prod.fst he, congrArg Prod.snd he⟩
  · refine ⟨i, h1, hn, ?_⟩
    by_cases hc : coin i
    · rw [if_pos hc] at he
      exact Or.inr ⟨congrArg Prod.snd he, congrArg Prod.fst he⟩
    · rw [if_neg hc] at he
      exact Or.inl ⟨congrArg Prod.snd he, congrArg Prod.fst he⟩

theorem treeRaw_adj_of_idx {n : ℕ} {p : ℕ → ℕ} {perm : List ℕ} {coin : ℕ → Bool}
    (hperm : permSpec n perm) (hp : parentSpec n p) {i : ℕ}
    (h1 : 1 ≤ i) (hn : i < n) :
    (udGraph (treeRaw n p perm coin)).Adj (perm.getD (p i) 0) (perm.getD i 0) := by
  have hpi : p i < i := hp i hn h1
  refine ⟨?_, ?_⟩
  · intro heq
    have := permSpec_getD_inj hperm (by omega) hn heq
    omega
  · have hm : (if coin i then (perm.getD i 0, perm.getD (p i) 0)
        else (perm.getD (p i) 0, perm.getD i 0)) ∈ treeRaw n p perm coin :=
      treeRaw_mem_iff.mpr ⟨i, h1, hn, rfl⟩
    by_cases hc : coin i
    · rw [if_pos hc] at hm
      exact Or.inr hm
    · rw [if_neg hc] at hm
      exact Or.inl hm

theorem treeRaw_reach_root {n : ℕ} {p : ℕ → ℕ} {perm : List ℕ} {coin : ℕ → Bool}
    (hperm : permSpec n perm) (hp : parentSpec n p) :
    ∀ i, i < n →
      (udGraph (treeRaw n p perm coin)).Reachable (perm.getD 0 0) (perm.getD i 0) := by
  intro i
  induction i using Nat.strong_induction_on with
  | _ i ih =>
    intro hn
    rcases Nat.eq_zero_or_pos i with rfl | h1
    · exact SimpleGraph.Reachable.refl _
    · have hpi : p i < i := hp i hn h1
      have hprev := ih (p i) hpi (by omega)
      exact hprev.trans (treeRaw_adj_of_idx hperm hp h1 hn).reachable

theorem treeRaw_preconnected {n : ℕ} {p : ℕ → ℕ} {perm : List ℕ} {coin : ℕ → Bool}
    (hperm : permSpec n perm) (hp : parentSpec n p) :
    ∀ a b, a < n → b < n → (udGraph (treeRaw n p perm coin)).Reachable a b := by
  intro a b ha hb
  obtain ⟨i, hi, rfl⟩ := permSpec_surj hperm ha
  obtain ⟨j, hj, rfl⟩ := permSpec_surj hperm hb
  exact (treeRaw_reach_root hperm hp i hi).symm.trans (treeRaw_reach_root hperm hp j hj)

theorem walk_edge_getVert_mem {V : Type} {G : SimpleGraph V} {x y : V}
    (w : G.Walk x y) : ∀ i, i < w.length →
      s(w.getVert i, w.getVert (i + 1)) ∈ w.edges := by
  induction w with
  | nil => intro i hi; simp at hi
  | cons h pw ih =>
    intro i hi
    cases i with
    | zero =>
      rw [SimpleGraph.Walk.getVert_zero, SimpleGraph.Walk.getVert_cons_succ,
        SimpleGraph.Walk.getVert_zero, SimpleGraph.Walk.edges_cons]
      exact List.mem_cons_self _ _
    | succ i =>
      rw [SimpleGraph.Walk.getVert_cons_succ, SimpleGraph.Walk.getVert_cons_succ,
        SimpleGraph.Walk.edges_cons]
      refine List.mem_cons_of_mem _ (ih i ?_)
      rw [SimpleGraph.Walk.length_cons] at hi
      omega

theorem cycle_second_ne_last {V : Type} {G : SimpleGraph V} {u : V} {q : G.Walk u u}
    (hq : q.IsCycle) : q.getVert 1 ≠ q.getVert (q.length - 1) := by
  have hL := hq.three_le_length
  have hnn : ¬q.Nil := hq.not_nil
  intro heq
  have hcyc2 : (SimpleGraph.Walk.cons (q.adj_getVert_one hnn) q.tail).IsCycle := by
    rw [q.cons_tail_eq hnn]
    exact hq
  rw [SimpleGraph.Walk.cons_isCycle_iff] at hcyc2
  obtain ⟨-, hnotmem⟩ := hcyc2
  apply hnotmem
  have htlen : q.tail.length + 1 = q.length := SimpleGraph.Walk.length_tail_add_one hnn
  have hidx : q.tail.length - 1 < q.tail.length := by omega
  have hmem := walk_edge_getVert_mem q.tail (q.tail.length - 1) hidx
  have h1 : q.tail.getVert (q.tail.length - 1) = q.getVert (q.length - 1) := by
    rw [SimpleGraph.Walk.getVert_tail q hnn]
    congr 1
    omega
  have h2 : q.tail.getVert (q.tail.length - 1 + 1) = u := by
    have heq2 : q.tail.length - 1 + 1 = q.tail.length := by omega
    rw [heq2]
    exact SimpleGraph.Walk.getVert_length q.tail
  rw [h1, h2, ← heq] at hmem
  rwa [Sym2.eq_swap] at hmem

theorem mem_support_of_rotate {V : Type} [DecidableEq V] {G : SimpleGraph V} {v u x : V}
    {c : G.Walk v v} (hu : u ∈ c.support)
    (hx : x ∈ (c.rotate hu).support) : x ∈ c.support := by
  rw [SimpleGraph.Walk.support_eq_cons] at hx
  rcases List.mem_cons.mp hx with rfl | hx
  · exact hu
  · have hrot := SimpleGraph.Walk.support_rotate c hu
    rw [SimpleGraph.Walk.support_eq_cons c]
    exact List.mem_cons_of_mem _ (hrot.mem_iff.mp hx)

theorem acyclic_of_parent {G : SimpleGraph ℕ} (r par : ℕ → ℕ)
    (hG : ∀ a b, G.Adj a b → (r b < r a ∧ b = par a) ∨ (r a < r b ∧ a = par b)) :
    G.IsAcyclic := by
  intro v c hc
  have hne : c.support.toFinset.Nonempty := ⟨v, List.mem_toFinset.mpr c.start_mem_support⟩
  obtain ⟨u, huf, hmax⟩ := c.support.toFinset.exists_max_image r hne
  have hu : u ∈ c.support := List.mem_toFinset.mp huf
  have hc2 : (c.rotate hu).IsCycle := hc.rotate hu
  have hmax2 : ∀ x ∈ (c.rotate hu).support, r x ≤ r u := fun x hx =>
    hmax x (List.mem_toFinset.mpr (mem_support_of_rotate hu hx))
  have hL := hc2.three_le_length
  have hnn : ¬(c.rotate hu).Nil := hc2.not_nil
  have ha1 : G.Adj u ((c.rotate hu).getVert 1) := (c.rotate hu).adj_getVert_one hnn
  have ha2 : G.Adj ((c.rotate hu).getVert ((c.rotate hu).length - 1))
      ((c.rotate hu).getVert ((c.rotate hu).length - 1 + 1)) :=
    (c.rotate hu).adj_getVert_succ (by omega)
  have hlast : (c.rotate hu).getVert ((c.rotate hu).length - 1 + 1) = u := by
    have heq : (c.rotate hu).length - 1 + 1 = (c.rotate hu).length := by omega
    rw [heq]
    exact SimpleGraph.Walk.getVert_length _
  rw [hlast] at ha2
  have hm1 : (c.rotate hu).getVert 1 ∈ (c.rotate hu).support :=
    SimpleGraph.Walk.mem_support_iff_exists_getVert.mpr ⟨1, rfl, by omega⟩
  have hm2 : (c.rotate hu).getVert ((c.rotate hu).length - 1) ∈ (c.rotate hu).support :=
    SimpleGraph.Walk.mem_support_iff_exists_getVert.mpr ⟨(c.rotate hu).length - 1, rfl, by omega⟩
  have hw1 : (c.rotate hu).getVert 1 = par u := by
    rcases hG u ((c.rotate hu).getVert 1) ha1 with h | h
    · exact h.2
    · have := hmax2 _ hm1
      omega
  have hw2 : (c.rotate hu).getVert ((c.rotate hu).length - 1) = par u := by
    rcases hG ((c.rotate hu).getVert ((c.rotate hu).length - 1)) u ha2 with h | h
    · have := hmax2 _ hm2
      omega
    · exact h.2
  exact cycle_second_ne_last hc2 (hw1.trans hw2.symm)

theorem treeRaw_acyclic {n : ℕ} {p : ℕ → ℕ} {perm : List ℕ} {coin : ℕ → Bool}
    (hperm : permSpec n perm) (hp : parentSpec n p) :
    (udGraph (treeRaw n p perm coin)).IsAcyclic := by
  apply acyclic_of_parent (fun x => perm.indexOf x)
    (fun x => perm.getD (p (perm.indexOf x)) 0)
  intro a b hab
  show (perm.indexOf b < perm.indexOf a ∧ b = perm.getD (p (perm.indexOf a)) 0) ∨
    (perm.indexOf a < perm.indexOf b ∧ a = perm.getD (p (perm.indexOf b)) 0)
  obtain ⟨i, h1, hn, hcases⟩ := treeRaw_adj hab
  have hpi : p i < i := hp i hn h1
  rcases hcases with ⟨rfl, rfl⟩ | ⟨rfl, rfl⟩
  · left
    rw [permSpec_indexOf_getD hperm hn, permSpec_indexOf_getD hperm (by omega : p i < n)]
    exact ⟨hpi, rfl⟩
  · right
    rw [permSpec_indexOf_getD hperm hn, permSpec_indexOf_getD hperm (by omega : p i < n)]
    exact ⟨hpi, rfl⟩

/-- C2: for every n and every bias, `genTree(n, t)` returns exactly
max(n − 1, 0) = n − 1 edges (ℕ subtraction), and the returned edge set,
treated as undirected, is acyclic and connects all n nodes 0..n−1: a spanning
tree over the n relabeled node ids.  Acyclicity is `SimpleGraph.IsAcyclic` of
the undirected graph of the edge list; connectivity is reachability between
any two of the n labels. -/
theorem genTree_spec (n : ℕ) (p : ℕ → ℕ) (perm : List ℕ) (coin : ℕ → Bool)
    (shuf : List Edge → List Edge) (hp : parentSpec n p) (hperm : permSpec n perm)
    (hshuf : shufSpec shuf) :
    (genTree n p perm coin shuf).length = n - 1 ∧
      (udGraph (genTree n p perm coin shuf)).IsAcyclic ∧
      ∀ a b, a < n → b < n →
        (udGraph (genTree n p perm coin shuf)).Reachable a b := by
  have hsame : udGraph (genTree n p perm coin shuf) = udGraph (treeRaw n p perm coin) :=
    udGraph_congr fun e => (hshuf (treeRaw n p perm coin)).mem_iff
  refine ⟨?_, ?_, ?_⟩
  · rw [genTree, (hshuf _).length_eq, treeRaw, List.length_map, List.length_range']
  · rw [hsame]
    exact treeRaw_acyclic hperm hp
  · rw [hsame]
    exact treeRaw_preconnected hperm hp

/-- Witness for C2 at n = 3 with a concrete permutation and coins. -/
theorem genTree_spec_witness :
    (genTree 3 (fun _ => 0) [2, 0, 1] (fun i => i % 2 = 0) id).length = 3 - 1 ∧
      (udGraph (genTree 3 (fun _ => 0) [2, 0, 1] (fun i => i % 2 = 0) id)).IsAcyclic ∧
      ∀ a b, a < 3 → b < 3 →
        (udGraph (genTree 3 (fun _ => 0) [2, 0, 1] (fun i => i % 2 = 0) id)).Reachable a b :=
  genTree_spec 3 (fun _ => 0) [2, 0, 1] (fun i => i % 2 = 0) id
    (fun i _ h1 => h1) (by unfold permSpec; decide) (fun l => List.Perm.refl l)

/-! ## The connected graph builder: claims C1, C6 -/

theorem sample_two {n : ℕ} {perm : List ℕ} (hperm : permSpec n perm) (hn : 2 ≤ n)
    {parts : List ℕ} {pick : ℕ → ℕ → ℕ → ℕ} {sshuf : List ℕ → List ℕ}
    (hparts : partitionSpec 2 n parts) (hpick : pickSpec pick)
    (hsshuf : shufSpec sshuf) :
    ∃ a b, sample perm n 2 parts pick sshuf = some [a, b] := by
  obtain ⟨hplen, hpos, hsum⟩ := hparts
  obtain ⟨picked, hpicked, hpl⟩ := getAll_some perm (sampleIdxs pick parts 0 0)
    (by
      intro j hj
      have := (sampleIdxs_bounds pick hpick parts 0 0 hpos j hj).2
      have hl := permSpec_length hperm
      omega)
  have hlen2 : (sshuf picked).length = 2 := by
    rw [(hsshuf picked).length_eq, hpl, sampleIdxs_length, hplen]
  obtain ⟨a, b, hab⟩ := List.length_eq_two.mp hlen2
  refine ⟨a, b, ?_⟩
  rw [sample, if_neg (by omega), hpicked, Option.map_some', hab]

theorem genExtras_some {n : ℕ} {perm : List ℕ} (hperm : permSpec n perm) (hn : 2 ≤ n)
    (parts : ℕ → List ℕ) (pick : ℕ → ℕ → ℕ → ℕ → ℕ) (sshuf : ℕ → List ℕ → List ℕ) :
    ∀ cnt k, (∀ j, k ≤ j → j < k + cnt → partitionSpec 2 n (parts j)) →
      (∀ j, pickSpec (pick j)) → (∀ j, shufSpec (sshuf j)) →
      ∃ ex, genExtras perm n parts pick sshuf k cnt = some ex ∧ ex.length = cnt := by
  intro cnt
  induction cnt with
  | zero => intro k _ _ _; exact ⟨[], rfl, rfl⟩
  | succ c ih =>
    intro k hparts hpick hsshuf
    obtain ⟨a, b, hs⟩ := sample_two hperm hn
      (hparts k (le_refl k) (by omega)) (hpick k) (hsshuf k)
    obtain ⟨ex, hex, hlen⟩ := ih (k + 1) (fun j hj1 hj2 => hparts j (by omega) (by omega))
      hpick hsshuf
    refine ⟨(a, b) :: ex, ?_, by simp [hlen]⟩
    rw [genExtras, hs, Option.some_bind]
    show (genExtras perm n parts pick sshuf (k + 1) c).map (fun r => (a, b) :: r) = _
    rw [hex, Option.map_some']

theorem graphRaw_length (n : ℕ) (p : ℕ → ℕ) (perm : List ℕ) :
    (graphRaw n p perm).length = n - 1 := by
  rw [graphRaw, List.length_map, List.length_range']

theorem graphRaw_reach {n : ℕ} {p : ℕ → ℕ} {perm : List ℕ}
    (hperm : permSpec n perm) (hp : parentSpec n p) :
    ∀ i, i < n → dReach (graphRaw n p perm) (perm.getD 0 0) (perm.getD i 0) := by
  intro i
  induction i using Nat.strong_induction_on with
  | _ i ih =>
    intro hn
    rcases Nat.eq_zero_or_pos i with rfl | h1
    · exact Relation.ReflTransGen.refl
    · have hpi : p i < i := hp i hn h1
      refine Relation.ReflTransGen.tail (ih (p i) hpi (by omega)) ?_
      rw [graphRaw, List.mem_map]
      exact ⟨i, List.mem_range'_1.mpr ⟨h1, by omega⟩, rfl⟩

theorem dReach_mono {E F : List Edge} (h : ∀ e ∈ E, e ∈ F) (a b : ℕ) :
    dReach E a b → dReach F a b :=
  Relation.ReflTransGen.mono fun x y hxy => h (x, y) hxy

/-- C1 (amended): for every n ≥ 1 and m with m ≥ n − 1 such that extra edges
are only requested when two distinct labels exist (n = 1 forces m = 0),
`genConnectedDirectedGraph(n, m, s, t)` returns exactly m directed edges,
every one of the n nodes is reachable from the reported start node s via
directed edges, and s is the permutation's first label perm[0].  The original
claim, quantified over every m ≥ n − 1, fails at n = 1, m = 1 (see the
counterexample): there `sample(perm, 1, 2)` violates the subset sampler's
precondition and generation aborts. -/
theorem genConnectedDirectedGraph_spec (n m : ℕ) (p : ℕ → ℕ) (perm : List ℕ)
    (parts : ℕ → List ℕ) (pick : ℕ → ℕ → ℕ → ℕ → ℕ) (sshuf : ℕ → List ℕ → List ℕ)
    (shuf : List Edge → List Edge)
    (hp : parentSpec n p) (hperm : permSpec n perm)
    (hparts : ∀ k, k ≤ m → n ≤ k → partitionSpec 2 n (parts k))
    (hpick : ∀ k, pickSpec (pick k)) (hsshuf : ∀ k, shufSpec (sshuf k))
    (hshuf : shufSpec shuf)
    (hn1 : 1 ≤ n) (hnm : n ≤ m + 1) (hone : n = 1 → m = 0) :
    ∃ E s, genConnectedDirectedGraph n m p perm parts pick sshuf shuf = some (E, s) ∧
      s = perm.getD 0 0 ∧ E.length = m ∧ ∀ v, v < n → dReach E s v := by
  have hex : ∃ ex, genExtras perm n parts pick sshuf n (m + 1 - n) = some ex ∧
      ex.length = m + 1 - n := by
    rcases Nat.lt_or_ge n 2 with hlt | hge
    · have he1 : n = 1 := by omega
      have hm0 : m = 0 := hone he1
      subst he1 hm0
      exact ⟨[], rfl, rfl⟩
    · exact genExtras_some hperm hge parts pick sshuf (m + 1 - n) n
        (fun j hj1 hj2 => hparts j (by omega) hj1) hpick hsshuf
  obtain ⟨ex, hex, hexlen⟩ := hex
  refine ⟨shuf (graphRaw n p perm ++ ex), perm.getD 0 0, ?_, rfl, ?_, ?_⟩
  · rw [genConnectedDirectedGraph, if_pos hnm, hex, Option.map_some']
  · rw [(hshuf _).length_eq, List.length_append, graphRaw_length, hexlen]
    omega
  · intro v hv
    obtain ⟨i, hi, rfl⟩ := permSpec_surj hperm hv
    refine dReach_mono ?_ _ _ (graphRaw_reach hperm hp i hi)
    intro e he
    exact (hshuf _).mem_iff.mpr (List.mem_append_left _ he)

/-- Witness for C1 (amended) at n = 3, m = 5 with concrete draws. -/
theorem genConnectedDirectedGraph_spec_witness :
    ∃ E s, genConnectedDirectedGraph 3 5 (fun _ => 0) [2, 0, 1] (fun _ => [1, 2])
        (fun _ _ lo _ => lo) (fun _ l => l) id = some (E, s) ∧
      s = ([2, 0, 1] : List ℕ).getD 0 0 ∧ E.length = 5 ∧
      ∀ v, v < 3 → dReach E s v :=
  genConnectedDirectedGraph_spec 3 5 (fun _ => 0) [2, 0, 1] (fun _ => [1, 2])
    (fun _ _ lo _ => lo) (fun _ l => l) id
    (fun i _ h1 => h1) (by unfold permSpec; decide)
    (by
      intro k _ _
      unfold partitionSpec
      refine ⟨rfl, ?_, rfl⟩
      show ∀ q ∈ ([1, 2] : List ℕ), 1 ≤ q
      decide)
    (fun k j lo hi h => ⟨le_rfl, h⟩) (fun k l => List.Perm.refl l)
    (fun l => List.Perm.refl l) (by decide) (by decide) (by omega)

/-- Counterexample to C1 as stated: at n = 1, m = 1 (which satisfies
m ≥ n − 1) the extra-edge loop calls `sample(perm, 1, 2)`, whose
precondition count ≤ length fails, so generation aborts with no result —
the claim promises exactly 1 edge.  Likewise n = 0 (with m = 0 ≥ n − 1)
aborts inside `sample(perm, 0, 2)`.  The draw arguments below satisfy their
contracts (`permSpec`, `parentSpec`, `shufSpec`); no draws can prevent the
abort, which happens before any random value is consulted. -/
theorem genConnectedDirectedGraph_cex :
    genConnectedDirectedGraph 1 1 (fun _ => 0) [0] (fun _ => [])
        (fun _ _ _ _ => 0) (fun _ l => l) id = none ∧
      genConnectedDirectedGraph 0 0 (fun _ => 0) [] (fun _ => [])
        (fun _ _ _ _ => 0) (fun _ l => l) id = none ∧
      permSpec 1 [0] ∧ permSpec 0 [] ∧ parentSpec 1 (fun _ => 0) ∧
      shufSpec (id : List Edge → List Edge) :=
  ⟨rfl, rfl, by unfold permSpec; decide, by unfold permSpec; decide,
    fun i _ h1 => h1, fun l => List.Perm.refl l⟩
